import Mathlib

/-!
Verification of the Cost-Curve Visualizer core (src/src/App.js).

The development shallowly embeds the data pipeline of the application:
the CSV parser (row splitting by the regex, field mapping, validation
filters, stable sort by cost), the cumulative layout fold, the quartile
statistics, and the derived chart geometry (bars, axis ticks, quartile
markers, weighted-average overlay).

JavaScript floating point numbers are modelled by rationals, with the
non-finite values NaN and the two infinities made explicit in the type
JSNum; float rounding is not modelled, but every division whose
denominator can be zero is, so degenerate-data behavior is captured
faithfully.  Array.prototype.sort with the comparator
(a, b) => a.cost - b.cost is required by the language standard to be a
stable sort; it is modelled by stable insertion sort.
-/

namespace CostCurve

/-- A JavaScript number: a finite rational, NaN, or one of the infinities. -/
inductive JSNum where
  | fin (q : ℚ)
  | nan
  | posInf
  | negInf
deriving DecidableEq

namespace JSNum

/-- JavaScript addition on JSNum. -/
def add : JSNum → JSNum → JSNum
  | fin a, fin b => fin (a + b)
  | nan, _ => nan
  | _, nan => nan
  | posInf, negInf => nan
  | negInf, posInf => nan
  | posInf, fin _ => posInf
  | fin _, posInf => posInf
  | posInf, posInf => posInf
  | negInf, fin _ => negInf
  | fin _, negInf => negInf
  | negInf, negInf => negInf

/-- JavaScript negation on JSNum. -/
def neg : JSNum → JSNum
  | fin a => fin (-a)
  | nan => nan
  | posInf => negInf
  | negInf => posInf

/-- JavaScript subtraction on JSNum. -/
def sub (a b : JSNum) : JSNum := a.add b.neg

/-- JavaScript multiplication on JSNum. -/
def mul : JSNum → JSNum → JSNum
  | fin a, fin b => fin (a * b)
  | nan, _ => nan
  | _, nan => nan
  | posInf, fin b => if b = 0 then nan else if 0 < b then posInf else negInf
  | negInf, fin b => if b = 0 then nan else if 0 < b then negInf else posInf
  | fin a, posInf => if a = 0 then nan else if 0 < a then posInf else negInf
  | fin a, negInf => if a = 0 then nan else if 0 < a then negInf else posInf
  | posInf, posInf => posInf
  | posInf, negInf => negInf
  | negInf, posInf => negInf
  | negInf, negInf => posInf

/-- JavaScript division on JSNum: division by zero yields NaN (for 0/0)
or a signed infinity, as in IEEE float semantics. -/
def div : JSNum → JSNum → JSNum
  | fin a, fin b =>
      if b = 0 then (if a = 0 then nan else if 0 < a then posInf else negInf)
      else fin (a / b)
  | nan, _ => nan
  | _, nan => nan
  | posInf, fin b => if 0 ≤ b then posInf else negInf
  | negInf, fin b => if 0 ≤ b then negInf else posInf
  | fin _, posInf => fin 0
  | fin _, negInf => fin 0
  | posInf, posInf => nan
  | posInf, negInf => nan
  | negInf, posInf => nan
  | negInf, negInf => nan

/-- Math.max on JSNum: NaN-propagating maximum. -/
def maxJ : JSNum → JSNum → JSNum
  | nan, _ => nan
  | _, nan => nan
  | fin a, fin b => fin (max a b)
  | posInf, fin _ => posInf
  | fin _, posInf => posInf
  | posInf, posInf => posInf
  | negInf, b => b
  | a, negInf => a

/-- The JavaScript test x > 0 (false on NaN). -/
def gtZero : JSNum → Bool
  | fin a => decide (0 < a)
  | posInf => true
  | _ => false

/-- Whether a JSNum is a finite number (not NaN and not infinite). -/
def isFin : JSNum → Bool
  | fin _ => true
  | _ => false

end JSNum

/-! ## The parser (handleFileUpload in App.js) -/

/-- JavaScript whitespace as matched by the regex class backslash-s
(restricted to the ASCII whitespace characters, which are the only ones
relevant to the CSV input). -/
def jsWS (c : Char) : Bool :=
  c == ' ' || c == '\t' || c == '\n' || c == '\r' || c == '\x0b' || c == '\x0c'

/-- The lookahead of the row-splitting regex: optional whitespace followed
by a comma or the end of the line. -/
def lookaheadOk (rest : List Char) : Bool :=
  match rest.dropWhile jsWS with
  | [] => true
  | c :: _ => c == ','

/-- The first regex alternative, a lazily quoted run: given the characters
after an opening quote, find the shortest extension ending in a closing
quote whose position satisfies the lookahead.  Returns the inner characters
and the rest of the line after the closing quote.  The dot of the regex
does not match line terminators. -/
def tryQuoted : List Char → Option (List Char × List Char)
  | [] => none
  | c :: cs =>
    if c == '"' && lookaheadOk cs then some ([], cs)
    else if c == '\n' || c == '\r' then none
    else (tryQuoted cs).map fun p => (c :: p.1, p.2)

/-- Backtracking for the second regex alternative: the candidate run is
shrunk from the right (its reversed form is the first argument) until the
lookahead holds at its end. -/
def shrinkRun : List Char → List Char → Option (List Char × List Char)
  | [], _ => none
  | c :: revRun, rest =>
    if lookaheadOk rest then some ((c :: revRun).reverse, rest)
    else shrinkRun revRun (c :: rest)

/-- The second regex alternative: a maximal nonempty run of characters
that are neither a comma nor a quote, shrunk until the lookahead holds. -/
def tryBare (s : List Char) : Option (List Char × List Char) :=
  let run := s.takeWhile fun c => !(c == '"' || c == ',')
  shrinkRun run.reverse (s.drop run.length)

/-- One match attempt of the row-splitting regex at the head of the line:
the quoted alternative (with the quotes kept in the matched text, as
the regex captures them) or the bare-run alternative. -/
def matchAt (s : List Char) : Option (List Char × List Char) :=
  match s with
  | [] => none
  | c :: cs =>
    if c == '"' then
      (tryQuoted cs).map fun p => ('"' :: (p.1 ++ ['"']), p.2)
    else
      tryBare (c :: cs)

/-- Global regex scan: repeatedly match at the current position, advancing
one character on failure.  The fuel argument starts at the length of the
line; every step consumes at least one character, so the fuel never runs
out on the real argument. -/
def scanGo : ℕ → List Char → List (List Char)
  | 0, _ => []
  | _ + 1, [] => []
  | fuel + 1, c :: cs =>
    match matchAt (c :: cs) with
    | some (f, rest) => f :: scanGo fuel rest
    | none => scanGo fuel cs

/-- All regex matches of a row, in order (String.prototype.match with the
global flag). -/
def scanFields (s : List Char) : List (List Char) :=
  scanGo s.length s

/-- row.match returns null (modelled None) when there is no match at all. -/
def matchFields (row : List Char) : Option (List (List Char)) :=
  match scanFields row with
  | [] => none
  | fs => some fs

/-- text.split backslash-n : split the character list on newline
characters; the empty text yields one empty line. -/
def splitLines : List Char → List (List Char)
  | [] => [[]]
  | c :: cs =>
    if c == '\n' then [] :: splitLines cs
    else
      match splitLines cs with
      | [] => [[c]]
      | l :: ls => (c :: l) :: ls

/-- String.prototype.trim, on the ASCII whitespace characters. -/
def jsTrim (s : List Char) : List Char :=
  ((s.dropWhile jsWS).reverse.dropWhile jsWS).reverse

/-- Remove every double-quote character (replace with the global quote
regex). -/
def stripQuotes (s : List Char) : List Char :=
  s.filter fun c => !(c == '"')

/-- Remove every double-quote and comma character (replace with the global
quote-or-comma class). -/
def stripQuotesCommas (s : List Char) : List Char :=
  s.filter fun c => !(c == '"' || c == ',')

/-- Digits to a natural number. -/
def digitsVal (ds : List Char) : ℕ :=
  ds.foldl (fun n c => 10 * n + (c.toNat - '0'.toNat)) 0

/-- Optional leading sign of a numeric literal. -/
def splitSign (s : List Char) : ℚ × List Char :=
  match s with
  | [] => (1, [])
  | c :: r => if c = '-' then (-1, r) else if c = '+' then (1, r) else (1, c :: r)

/-- Optional exponent suffix of a numeric literal (value only). -/
def expVal (s : List Char) : ℤ :=
  match s with
  | [] => 0
  | e :: r =>
    if e == 'e' || e == 'E' then
      match r with
      | '-' :: rr =>
          if (rr.takeWhile Char.isDigit).isEmpty then 0
          else -(digitsVal (rr.takeWhile Char.isDigit) : ℤ)
      | '+' :: rr =>
          if (rr.takeWhile Char.isDigit).isEmpty then 0
          else (digitsVal (rr.takeWhile Char.isDigit) : ℤ)
      | _ =>
          if (r.takeWhile Char.isDigit).isEmpty then 0
          else (digitsVal (r.takeWhile Char.isDigit) : ℤ)
    else 0

/-- JavaScript parseFloat on the finite decimal grammar: skip leading
whitespace, optional sign, integer digits, optional fraction, optional
exponent; None models NaN (no valid numeric prefix).  The Infinity
literal and float overflow are not modelled; no CSV field of interest
produces them. -/
def parseFloat (s : List Char) : Option ℚ :=
  let s1 := s.dropWhile jsWS
  let p := splitSign s1
  let intPart := p.2.takeWhile Char.isDigit
  let s3 := p.2.drop intPart.length
  let fracPart :=
    match s3 with
    | '.' :: r => r.takeWhile Char.isDigit
    | _ => []
  let s4 :=
    match s3 with
    | '.' :: r => r.drop (r.takeWhile Char.isDigit).length
    | _ => s3
  if intPart.isEmpty && fracPart.isEmpty then none
  else
    some (p.1 * ((digitsVal intPart : ℚ) + (digitsVal fracPart : ℚ) / 10 ^ fracPart.length)
      * (10 : ℚ) ^ expVal s4)

/-- A parsed CSV record (one per surviving input row). -/
structure Record where
  name : String
  production : ℚ
  cost : ℚ
  highlight : Bool
  id : ℕ
deriving DecidableEq

/-- Field mapping of one split row (the body of the map in
handleFileUpload): strip quotes and trim the name, strip quotes and
commas from the production and parse it (NaN or 0 both end as 0, since
the JavaScript code applies the or-zero idiom), parse the cost without
any quote stripping, and compare the trimmed fourth field with the
literal 1. -/
def mkRecord (row : List (List Char)) (index : ℕ) : Record where
  name := String.mk (jsTrim (stripQuotes (row.headD [])))
  production := (parseFloat (stripQuotesCommas (row.getD 1 []))).getD 0
  cost := (parseFloat (row.getD 2 [])).getD 0
  highlight := jsTrim (row.getD 3 []) == ['1']
  id := index

/-- The row filter of handleFileUpload: the row matched the regex at least
once and has at least 4 fields. -/
def rowOk : Option (List (List Char)) → Bool
  | some fs => decide (4 ≤ fs.length)
  | none => false

/-- The positivity filter of handleFileUpload. -/
def recOk (r : Record) : Bool :=
  decide (0 < r.production) && decide (0 < r.cost)

/-- All rows of the CSV text, split into fields by the regex. -/
def rowFields (text : String) : List (Option (List (List Char))) :=
  (splitLines text.data).map matchFields

/-- The data rows: everything after the header row. -/
def dataRows (text : String) : List (Option (List (List Char))) :=
  (rowFields text).drop 1

/-- parsedData of handleFileUpload: drop the header, keep rows with at
least 4 fields, map the fields to records (the id is the index within the
length-filtered list), and keep records with positive production and
cost. -/
def parsedData (text : String) : List Record :=
  ((((dataRows text).filter rowOk).enum.map
    (fun p => mkRecord (p.2.getD []) p.1)).filter recOk)

/-- The sort relation of the comparator (a, b) => a.cost - b.cost. -/
def costLE (a b : Record) : Prop := a.cost ≤ b.cost

instance : DecidableRel costLE := fun a b => inferInstanceAs (Decidable (a.cost ≤ b.cost))

instance : IsTotal Record costLE := ⟨fun a b => le_total a.cost b.cost⟩

instance : IsTrans Record costLE := ⟨fun _ _ _ h1 h2 => le_trans h1 h2⟩

/-- The full parser: parsedData sorted stably by ascending cost
(Array.prototype.sort is stable). -/
def parseCSV (text : String) : List Record :=
  (parsedData text).insertionSort costLE

/-! ## The layout engine -/

/-- A record together with the running production sum of all records
before it in the cost-sorted list. -/
structure LayoutRecord extends Record where
  cumulativeProduction : ℚ
deriving DecidableEq

/-- The cumulative fold of the layout useMemo: each record is emitted with
the running total before its own production is added. -/
def cumulativeDataAux (c : ℚ) : List Record → List LayoutRecord
  | [] => []
  | r :: rs => { toRecord := r, cumulativeProduction := c } :: cumulativeDataAux (c + r.production) rs

/-- cumulativeData of the layout useMemo. -/
def cumulativeData (data : List Record) : List LayoutRecord :=
  cumulativeDataAux 0 data

/-- totalProduction: the final value of the running sum. -/
def totalProduction (data : List Record) : ℚ :=
  data.foldl (fun s r => s + r.production) 0

/-- maxCost: Math.max folded over the costs, starting from 0. -/
def maxCost (data : List Record) : ℚ :=
  data.foldl (fun m r => max m r.cost) 0

/-- The cost values of cumulativeData, sorted ascending. -/
def sortedCosts (data : List Record) : List ℚ :=
  ((cumulativeData data).map (fun it => it.cost)).insertionSort (· ≤ ·)

/-- The three quartile order statistics. -/
structure Quartiles where
  q1 : ℚ
  median : ℚ
  q3 : ℚ
deriving DecidableEq

/-- quartiles of the layout useMemo: index the ascending-sorted costs at
the floor of length times 0.25, 0.5, 0.75 (those products are exact in
floating point, so the floor is exactly the integer division), with 0 as
the out-of-range fallback (the or-zero idiom). -/
def quartiles (data : List Record) : Quartiles :=
  let sc := sortedCosts data
  let len := sc.length
  { q1 := sc.getD (len / 4) 0
    median := sc.getD (len / 2) 0
    q3 := sc.getD (3 * len / 4) 0 }

/-! ## Chart geometry -/

def SVG_WIDTH : ℚ := 1200

def SVG_HEIGHT : ℚ := 600

/-- The chart margins. -/
structure Margin where
  top : ℚ
  right : ℚ
  left : ℚ
  bottom : ℚ

def MARGIN : Margin := { top := 40, right := 30, left := 80, bottom := 80 }

def chartWidth : ℚ := SVG_WIDTH - MARGIN.left - MARGIN.right

def chartHeight : ℚ := SVG_HEIGHT - MARGIN.top - MARGIN.bottom

def barPadding : ℚ := 1

/-- The geometry of one bar rectangle. -/
structure Bar where
  x : JSNum
  width : JSNum
  y : JSNum
  height : JSNum
deriving DecidableEq

/-- getBars: the bar geometry of every layout record, with the unguarded
divisions by totalProduction and maxCost. -/
def getBars (data : List Record) : List Bar :=
  (cumulativeData data).map fun item =>
    { x := (((JSNum.fin item.cumulativeProduction).div (JSNum.fin (totalProduction data))).mul
          (JSNum.fin chartWidth)).add (JSNum.fin MARGIN.left)
      width := JSNum.maxJ
          ((((JSNum.fin item.production).div (JSNum.fin (totalProduction data))).mul
            (JSNum.fin chartWidth)).sub (JSNum.fin barPadding)) (JSNum.fin 1)
      y := (JSNum.fin (SVG_HEIGHT - MARGIN.bottom)).sub
          (((JSNum.fin item.cost).div (JSNum.fin (maxCost data))).mul (JSNum.fin chartHeight))
      height := ((JSNum.fin item.cost).div (JSNum.fin (maxCost data))).mul (JSNum.fin chartHeight) }

/-- One horizontal gridline of the cost axis. -/
structure YTick where
  value : ℚ
  y : JSNum
deriving DecidableEq

/-- yAxisTicks: None when the gridlines are toggled off; otherwise one
tick every 500 cost units, from 0 up to the ceiling of maxCost / 500,
with the unguarded division by maxCost. -/
def yAxisTicks (showLines : Bool) (data : List Record) : Option (List YTick) :=
  if !showLines then none
  else
    let mc := maxCost data
    let tickCount : ℤ := ⌈mc / 500⌉
    some ((List.range (tickCount + 1).toNat).map fun i =>
      let value : ℚ := 500 * i
      { value := value
        y := (JSNum.fin (SVG_HEIGHT - MARGIN.bottom)).sub
          (((JSNum.fin value).div (JSNum.fin mc)).mul (JSNum.fin chartHeight)) })

/-- One ticker of the production axis. -/
structure XTick where
  value : ℚ
  x : JSNum
deriving DecidableEq

/-- xAxisTicks: None when the tickers are toggled off; otherwise one tick
every 10000 production units, from 0 up to the largest multiple not above
totalProduction, with the unguarded division by totalProduction. -/
def xAxisTicks (showTickers : Bool) (data : List Record) : Option (List XTick) :=
  if !showTickers then none
  else
    let total := totalProduction data
    some ((List.range (⌊total / 10000⌋ + 1).toNat).map fun k =>
      let value : ℚ := 10000 * k
      { value := value
        x := (((JSNum.fin value).div (JSNum.fin total)).mul (JSNum.fin chartWidth)).add
          (JSNum.fin MARGIN.left) })

/-- The x position of one quartile marker: the linear find of the first
layout record whose cost is at least the value; when the find fails, the
optional chaining yields undefined, whose division is NaN. -/
def quartileX (data : List Record) (value : ℚ) : JSNum :=
  let numer : JSNum :=
    match (cumulativeData data).find? (fun item => decide (value ≤ item.cost)) with
    | some it => JSNum.fin it.cumulativeProduction
    | none => JSNum.nan
  ((numer.div (JSNum.fin (totalProduction data))).mul (JSNum.fin chartWidth)).add
    (JSNum.fin MARGIN.left)

/-- One rendered quartile marker. -/
structure QuartileLine where
  label : String
  value : ℚ
  x : JSNum
deriving DecidableEq

/-- quartileLines: None when toggled off; otherwise one marker per entry
of the quartiles object, in insertion order, each rendered
unconditionally at its computed x position. -/
def quartileLines (showQ : Bool) (data : List Record) : Option (List QuartileLine) :=
  if !showQ then none
  else
    let q := quartiles data
    some [{ label := "q1", value := q.q1, x := quartileX data q.q1 },
          { label := "median", value := q.median, x := quartileX data q.median },
          { label := "q3", value := q.q3, x := quartileX data q.q3 }]

/-- The weighted average cost effect: the quotient of the two reduces over
the raw record list (recomputed from data, not from cumulativeData). -/
def weightedAverageCost (data : List Record) : JSNum :=
  let total := data.foldl (fun s it => s + it.production) 0
  let weightedSum := data.foldl (fun s it => s + it.cost * it.production) 0
  (JSNum.fin weightedSum).div (JSNum.fin total)

/-- The guard of the weighted-average overlay: the checkbox and the
strictly-positive test (false on NaN). -/
def weightedAverageShown (showWA : Bool) (data : List Record) : Bool :=
  showWA && (weightedAverageCost data).gtZero

/-- The y position of the weighted-average overlay line. -/
def weightedAverageY (data : List Record) : JSNum :=
  (JSNum.fin (SVG_HEIGHT - MARGIN.bottom)).sub
    (((weightedAverageCost data).div (JSNum.fin (maxCost data))).mul (JSNum.fin chartHeight))

/-! ## Example data: the worked example of the specification, already in
cost-ascending order. -/

def exData : List Record :=
  [{ name := "C", production := 50, cost := 5, highlight := false, id := 2 },
   { name := "A", production := 100, cost := 10, highlight := false, id := 0 },
   { name := "B", production := 200, cost := 20, highlight := true, id := 1 }]

/-! ## Facts about the cumulative layout -/

lemma cumulativeDataAux_length (c : ℚ) (l : List Record) :
    (cumulativeDataAux c l).length = l.length := by
  induction l generalizing c with
  | nil => rfl
  | cons r rs ih => simp [cumulativeDataAux, ih]

lemma cumulativeData_length (data : List Record) :
    (cumulativeData data).length = data.length :=
  cumulativeDataAux_length 0 data

lemma cumulativeDataAux_cum_getElem (l : List Record) (c : ℚ) (i : ℕ)
    (hi : i < (cumulativeDataAux c l).length) :
    ((cumulativeDataAux c l)[i]).cumulativeProduction
      = c + ((l.take i).map Record.production).sum := by
  induction l generalizing c i with
  | nil => simp [cumulativeDataAux] at hi
  | cons r rs ih =>
    cases i with
    | zero => simp [cumulativeDataAux]
    | succ j =>
      have hj : j < (cumulativeDataAux (c + r.production) rs).length := by
        simpa [cumulativeDataAux] using hi
      have hrec := ih (c + r.production) j hj
      simp only [cumulativeDataAux, List.getElem_cons_succ, List.take_succ_cons,
        List.map_cons, List.sum_cons] at hrec ⊢
      rw [hrec]; ring

lemma cumulativeDataAux_record_getElem (l : List Record) (c : ℚ) (i : ℕ)
    (hi : i < (cumulativeDataAux c l).length) (hi' : i < l.length) :
    ((cumulativeDataAux c l)[i]).toRecord = l[i] := by
  induction l generalizing c i with
  | nil => simp at hi'
  | cons r rs ih =>
    cases i with
    | zero => simp [cumulativeDataAux]
    | succ j =>
      have hj : j < (cumulativeDataAux (c + r.production) rs).length := by
        simpa [cumulativeDataAux] using hi
      have hj' : j < rs.length := by simpa using hi'
      simpa [cumulativeDataAux] using ih (c + r.production) j hj hj'

lemma cumulativeDataAux_cum_ge (l : List Record) (c : ℚ)
    (h : ∀ r ∈ l, 0 ≤ r.production) :
    ∀ it ∈ cumulativeDataAux c l, c ≤ it.cumulativeProduction := by
  induction l generalizing c with
  | nil => simp [cumulativeDataAux]
  | cons r rs ih =>
    intro it hit
    rcases List.mem_cons.mp hit with rfl | h2
    · exact le_refl _
    · have hcc : c ≤ c + r.production := by
        have := h r (by simp)
        linarith
      exact le_trans hcc (ih (c + r.production) (fun x hx => h x (by simp [hx])) it h2)

lemma cumulativeDataAux_pairwise (l : List Record) (c : ℚ)
    (h : ∀ r ∈ l, 0 ≤ r.production) :
    (cumulativeDataAux c l).Pairwise
      (fun a b => a.cumulativeProduction ≤ b.cumulativeProduction) := by
  induction l generalizing c with
  | nil => exact List.Pairwise.nil
  | cons r rs ih =>
    refine List.Pairwise.cons ?_ (ih (c + r.production) fun x hx => h x (by simp [hx]))
    intro b hb
    have hcc : c ≤ c + r.production := by
      have := h r (by simp)
      linarith
    exact le_trans hcc
      (cumulativeDataAux_cum_ge rs (c + r.production) (fun x hx => h x (by simp [hx])) b hb)

lemma foldl_add_production (l : List Record) (a : ℚ) :
    l.foldl (fun s r => s + r.production) a = a + (l.map Record.production).sum := by
  induction l generalizing a with
  | nil => simp
  | cons r rs ih => simp [ih]; ring

lemma totalProduction_eq_sum (data : List Record) :
    totalProduction data = (data.map Record.production).sum := by
  simpa using foldl_add_production data 0

lemma cumulativeDataAux_getLast? (l : List Record) (c : ℚ) (lr : LayoutRecord)
    (h : (cumulativeDataAux c l).getLast? = some lr) :
    lr.cumulativeProduction + lr.production = c + (l.map Record.production).sum := by
  induction l generalizing c with
  | nil => simp [cumulativeDataAux] at h
  | cons r rs ih =>
    cases rs with
    | nil =>
      simp [cumulativeDataAux] at h
      subst h
      simp
    | cons r2 rs2 =>
      have h2 : (cumulativeDataAux (c + r.production) (r2 :: rs2)).getLast? = some lr := by
        simpa [cumulativeDataAux, List.getLast?_cons_cons] using h
      have := ih (c + r.production) h2
      simp only [List.map_cons, List.sum_cons] at this ⊢
      rw [this]; ring

/-- C1: For every validated record list, the cumulative layout assigns
each record a cumulativeProduction equal to the sum of the productions of
all records preceding it (in particular the first record gets 0), the
values are non-decreasing across the list, totalProduction is the sum of
all productions, and the last record closes the telescope: its
cumulativeProduction plus its production equals totalProduction. -/
theorem cumulative_layout_spec (data : List Record)
    (hpos : ∀ r ∈ data, 0 < r.production) :
    (∀ i, ∀ hi : i < (cumulativeData data).length,
        ((cumulativeData data)[i]).cumulativeProduction
          = ((data.take i).map Record.production).sum)
  ∧ (∀ lr, (cumulativeData data).head? = some lr → lr.cumulativeProduction = 0)
  ∧ (cumulativeData data).Pairwise
      (fun a b => a.cumulativeProduction ≤ b.cumulativeProduction)
  ∧ totalProduction data = (data.map Record.production).sum
  ∧ (∀ lr, (cumulativeData data).getLast? = some lr →
        lr.cumulativeProduction + lr.production = totalProduction data) := by
  have hnn : ∀ r ∈ data, 0 ≤ r.production := fun r hr => le_of_lt (hpos r hr)
  refine ⟨?_, ?_, ?_, ?_, ?_⟩
  · intro i hi
    simpa using cumulativeDataAux_cum_getElem data 0 i hi
  · intro lr hlr
    cases data with
    | nil => simp [cumulativeData, cumulativeDataAux] at hlr
    | cons r rs =>
      simp [cumulativeData, cumulativeDataAux] at hlr
      rw [← hlr]
  · exact cumulativeDataAux_pairwise data 0 hnn
  · exact totalProduction_eq_sum data
  · intro lr hlr
    rw [totalProduction_eq_sum]
    simpa using cumulativeDataAux_getLast? data 0 lr hlr

/-- Witness for C1 at the worked example of the specification. -/
theorem cumulative_layout_spec_witness :
    totalProduction exData = (exData.map Record.production).sum :=
  (cumulative_layout_spec exData (by decide)).2.2.2.1

/-! ## Sortedness and stability of the parser output -/

lemma filter_costEq_orderedInsert (a : Record) (s : List Record) (c : ℚ) :
    (s.orderedInsert costLE a).filter (fun r => decide (r.cost = c))
      = (a :: s).filter (fun r => decide (r.cost = c)) := by
  induction s with
  | nil => rfl
  | cons b t ih =>
    by_cases hab : costLE a b
    · simp [List.orderedInsert, hab]
    · have hlt : b.cost < a.cost := lt_of_not_le hab
      by_cases ha : a.cost = c
      · have hb : ¬ b.cost = c := by
          intro hbc
          exact hab (le_of_eq (ha.trans hbc.symm))
        simp [List.orderedInsert, hab, List.filter_cons, ha, hb, ih]
      · simp [List.orderedInsert, hab, List.filter_cons, ha, ih]

lemma filter_costEq_insertionSort (l : List Record) (c : ℚ) :
    (l.insertionSort costLE).filter (fun r => decide (r.cost = c))
      = l.filter (fun r => decide (r.cost = c)) := by
  induction l with
  | nil => rfl
  | cons a s ih =>
    have h1 : (a :: s).insertionSort costLE
        = (s.insertionSort costLE).orderedInsert costLE a := rfl
    rw [h1, filter_costEq_orderedInsert, List.filter_cons, List.filter_cons, ih]

/-- C3: The record list produced by the parser is sorted non-decreasing by
cost, and stably so: for every cost value, the records of that cost appear
in the sorted output in exactly their pre-sort (input) order. -/
theorem parse_sorted_stable (text : String) :
    List.Sorted costLE (parseCSV text)
  ∧ ∀ c : ℚ, (parseCSV text).filter (fun r => decide (r.cost = c))
      = (parsedData text).filter (fun r => decide (r.cost = c)) :=
  ⟨List.sorted_insertionSort costLE (parsedData text),
   fun c => filter_costEq_insertionSort (parsedData text) c⟩

/-! ## Row counting through the validation filters -/

/-- C2: If every data row of the CSV splits into at least 4 fields, the
parsed record list has exactly as many records as there are data rows
whose mapped production and cost are both positive; short rows and
non-positive rows are dropped by total functions, so no error can be
raised. -/
theorem parse_count (text : String)
    (h : ∀ r ∈ dataRows text, rowOk r = true) :
    (parseCSV text).length
      = (dataRows text).countP (fun r => recOk (mkRecord (r.getD []) 0)) := by
  have h1 : (parseCSV text).length = (parsedData text).length :=
    List.length_insertionSort costLE (parsedData text)
  rw [h1]
  unfold parsedData
  rw [List.filter_eq_self.mpr h, ← List.countP_eq_length_filter, List.countP_map]
  have h2 : (recOk ∘ fun p : ℕ × Option (List (List Char)) => mkRecord (p.2.getD []) p.1)
      = (fun r => recOk (mkRecord (r.getD []) 0)) ∘ Prod.snd := by
    funext p
    rfl
  rw [h2, ← List.countP_map, List.enum_eq_enumFrom, List.enumFrom_map_snd]

/-- A CSV text exercising the counting theorem: four data rows, each with
four fields, of which exactly two pass the positivity filter. -/
def exText : String :=
  "name,production,cost,highlight\nA,100,10,0\nB,0,5,1\nC,50,0,1\nD,2,3,1"

/-- Witness for C2 at a concrete CSV text. -/
theorem parse_count_witness :
    (parseCSV exText).length
      = (dataRows exText).countP (fun r => recOk (mkRecord (r.getD []) 0)) :=
  parse_count exText (by decide)

/-! ## Quartile order statistics -/

lemma sortedCosts_length (data : List Record) :
    (sortedCosts data).length = data.length := by
  unfold sortedCosts
  rw [List.length_insertionSort, List.length_map, cumulativeData_length]

lemma sorted_getElem_le (sc : List ℚ) (hs : List.Sorted (· ≤ ·) sc) (i j : ℕ)
    (hi : i < sc.length) (hj : j < sc.length) (hij : i ≤ j) : sc[i] ≤ sc[j] := by
  rcases Nat.eq_or_lt_of_le hij with rfl | hlt
  · exact le_refl _
  · exact List.pairwise_iff_getElem.mp hs i j hi hj hlt

/-- C5: For every non-empty record list, the quartile order statistics,
taken by indexing the ascending-sorted cost array at the floor of length
times 0.25, 0.5 and 0.75 with fallback 0, satisfy q1 at most median at
most q3. -/
theorem quartiles_ordered (data : List Record) (h : data ≠ []) :
    (quartiles data).q1 ≤ (quartiles data).median
  ∧ (quartiles data).median ≤ (quartiles data).q3 := by
  have hlen : (sortedCosts data).length = data.length := sortedCosts_length data
  have hpos : 0 < (sortedCosts data).length := by
    rw [hlen]
    exact List.length_pos.mpr h
  have hs : List.Sorted (· ≤ ·) (sortedCosts data) :=
    List.sorted_insertionSort _ _
  set sc := sortedCosts data
  set len := sc.length with hlendef
  have h14 : len / 4 < len := by omega
  have h12 : len / 2 < len := by omega
  have h34 : 3 * len / 4 < len := by omega
  have hq1 : (quartiles data).q1 = sc[len / 4] := by
    simp only [quartiles, List.getD_eq_getElem?_getD, List.getElem?_eq_getElem h14,
      Option.getD_some]
  have hmed : (quartiles data).median = sc[len / 2] := by
    simp only [quartiles, List.getD_eq_getElem?_getD, List.getElem?_eq_getElem h12,
      Option.getD_some]
  have hq3 : (quartiles data).q3 = sc[3 * len / 4] := by
    simp only [quartiles, List.getD_eq_getElem?_getD, List.getElem?_eq_getElem h34,
      Option.getD_some]
  rw [hq1, hmed, hq3]
  exact ⟨sorted_getElem_le sc hs _ _ h14 h12 (by omega),
         sorted_getElem_le sc hs _ _ h12 h34 (by omega)⟩

/-- Witness for C5 at the worked example of the specification. -/
theorem quartiles_ordered_witness :
    (quartiles exData).q1 ≤ (quartiles exData).median
  ∧ (quartiles exData).median ≤ (quartiles exData).q3 :=
  quartiles_ordered exData (by decide)

/-! ## Arithmetic facts about JSNum -/

lemma JSNum.div_fin_fin (a b : ℚ) (h : b ≠ 0) :
    (JSNum.fin a).div (JSNum.fin b) = JSNum.fin (a / b) := by
  simp [JSNum.div, h]

lemma JSNum.mul_fin_fin (a b : ℚ) :
    (JSNum.fin a).mul (JSNum.fin b) = JSNum.fin (a * b) := rfl

lemma JSNum.add_fin_fin (a b : ℚ) :
    (JSNum.fin a).add (JSNum.fin b) = JSNum.fin (a + b) := rfl

lemma JSNum.sub_fin_fin (a b : ℚ) :
    (JSNum.fin a).sub (JSNum.fin b) = JSNum.fin (a - b) := by
  simp [JSNum.sub, JSNum.add, JSNum.neg, sub_eq_add_neg]

lemma JSNum.maxJ_fin_fin (a b : ℚ) :
    JSNum.maxJ (JSNum.fin a) (JSNum.fin b) = JSNum.fin (max a b) := rfl

lemma JSNum.nan_div (b : JSNum) : JSNum.nan.div b = JSNum.nan := by
  cases b <;> rfl

lemma JSNum.nan_mul (b : JSNum) : JSNum.nan.mul b = JSNum.nan := by
  cases b <;> rfl

lemma JSNum.nan_add (b : JSNum) : JSNum.nan.add b = JSNum.nan := by
  cases b <;> rfl

/-! ## The weighted average cost -/

lemma weightedAverageCost_eq (data : List Record) :
    weightedAverageCost data
      = (JSNum.fin (data.foldl (fun s it => s + it.cost * it.production) 0)).div
          (JSNum.fin (totalProduction data)) := rfl

lemma foldl_add_weighted (l : List Record) (a : ℚ) :
    l.foldl (fun s it => s + it.cost * it.production) a
      = a + (l.map fun r => r.cost * r.production).sum := by
  induction l generalizing a with
  | nil => simp
  | cons r rs ih => simp [ih]; ring

lemma total_pos_of_cons (r : Record) (rs : List Record)
    (hpos : ∀ x ∈ r :: rs, 0 < x.production) :
    0 < totalProduction (r :: rs) := by
  rw [totalProduction_eq_sum, List.map_cons, List.sum_cons]
  have h1 : 0 < r.production := hpos r (by simp)
  have h2 : 0 ≤ (rs.map Record.production).sum :=
    List.sum_nonneg fun x hx => by
      obtain ⟨y, hy, rfl⟩ := List.mem_map.mp hx
      exact le_of_lt (hpos y (by simp [hy]))
  linarith

lemma eq_nil_of_total_eq_zero (data : List Record)
    (hpos : ∀ r ∈ data, 0 < r.production) (h0 : totalProduction data = 0) :
    data = [] := by
  cases data with
  | nil => rfl
  | cons r rs => exact absurd h0 (ne_of_gt (total_pos_of_cons r rs hpos))

/-- C7: The weighted average cost is the quotient of the production-weighted
cost sum by the production sum, computed over the raw record list; when the
total production is zero (for validated records: when the list is empty)
the quotient zero-over-zero is NaN and the overlay guard suppresses the
weighted-average line. -/
theorem weighted_average_spec (data : List Record)
    (hpos : ∀ r ∈ data, 0 < r.production) :
    (totalProduction data ≠ 0 →
        weightedAverageCost data
          = JSNum.fin ((data.map fun r => r.cost * r.production).sum
              / (data.map Record.production).sum))
  ∧ (totalProduction data = 0 →
        weightedAverageCost data = JSNum.nan
      ∧ weightedAverageShown true data = false) := by
  constructor
  · intro hne
    rw [weightedAverageCost_eq, JSNum.div_fin_fin _ _ hne]
    have hws : data.foldl (fun s it => s + it.cost * it.production) 0
        = (data.map fun r => r.cost * r.production).sum := by
      simpa using foldl_add_weighted data 0
    rw [hws, totalProduction_eq_sum]
  · intro h0
    have hnil : data = [] := eq_nil_of_total_eq_zero data hpos h0
    subst hnil
    exact ⟨rfl, rfl⟩

/-- Witness for C7 at the worked example of the specification. -/
theorem weighted_average_spec_witness :
    weightedAverageCost exData
      = JSNum.fin ((exData.map fun r => r.cost * r.production).sum
          / (exData.map Record.production).sum) :=
  (weighted_average_spec exData (by decide)).1 (by norm_num [totalProduction, exData])

/-! ## Degenerate data -/

/-- C4 counterexample: on the empty record list, with the gridlines and
tickers at their default (shown) state, both axes emit a tick whose
coordinate is NaN, so a NaN value is handed to the renderer. -/
theorem degenerate_nan_counterexample :
    yAxisTicks true [] = some [{ value := 0, y := JSNum.nan }]
  ∧ xAxisTicks true [] = some [{ value := 0, x := JSNum.nan }] := by
  constructor
  · simp [yAxisTicks, maxCost, JSNum.div, JSNum.mul, JSNum.sub, JSNum.add, JSNum.neg,
      List.range_succ]
  · simp [xAxisTicks, totalProduction, JSNum.div, JSNum.mul, JSNum.add, List.range_succ]

/-- C4 amended: on the degenerate dataset the bar list is empty, the
quartile values fall back to 0, the weighted average is NaN and its
overlay is suppressed, and no exception is raised (every derived value is
a total function of the data); however the axis tick at value 0 carries a
NaN coordinate and the quartile markers, when shown, are emitted with NaN
x positions, and these NaN values are handed to the renderer rather than
being guarded into an empty state. -/
theorem degenerate_empty_behavior :
    getBars [] = []
  ∧ quartiles [] = { q1 := 0, median := 0, q3 := 0 }
  ∧ weightedAverageCost [] = JSNum.nan
  ∧ weightedAverageShown true [] = false
  ∧ yAxisTicks true [] = some [{ value := 0, y := JSNum.nan }]
  ∧ xAxisTicks true [] = some [{ value := 0, x := JSNum.nan }]
  ∧ quartileLines true [] = some
      [{ label := "q1", value := 0, x := JSNum.nan },
       { label := "median", value := 0, x := JSNum.nan },
       { label := "q3", value := 0, x := JSNum.nan }] := by
  refine ⟨rfl, rfl, rfl, rfl, ?_, ?_, rfl⟩
  · simp [yAxisTicks, maxCost, JSNum.div, JSNum.mul, JSNum.sub, JSNum.add, JSNum.neg,
      List.range_succ]
  · simp [xAxisTicks, totalProduction, JSNum.div, JSNum.mul, JSNum.add, List.range_succ]

/-! ## Quartile marker positioning -/

lemma find?_first {α : Type} (p : α → Bool) (l₁ : List α) (it : α) (l₂ : List α)
    (hb : ∀ a ∈ l₁, p a = false) (hp : p it = true) :
    (l₁ ++ it :: l₂).find? p = some it := by
  induction l₁ with
  | nil => simp [List.find?_cons_of_pos, hp]
  | cons a t ih =>
    rw [List.cons_append, List.find?_cons_of_neg]
    · exact ih fun x hx => hb x (List.mem_cons_of_mem a hx)
    · simp [hb a (by simp)]

/-- C6 amended: the x position of a quartile marker is computed from the
cumulativeProduction of the first layout record (in cost-ascending order)
whose cost is at least the quartile value; when no such record exists the
x position degenerates to NaN (the optional chaining yields undefined and
its division is NaN) and the marker is still emitted, not skipped. -/
theorem quartile_marker_first_match (data : List Record) (value : ℚ) :
    ((∀ it ∈ cumulativeData data, it.cost < value) →
        quartileX data value = JSNum.nan)
  ∧ (∀ l₁ it l₂, cumulativeData data = l₁ ++ it :: l₂ →
        (∀ a ∈ l₁, a.cost < value) → value ≤ it.cost →
        quartileX data value
          = (((JSNum.fin it.cumulativeProduction).div
              (JSNum.fin (totalProduction data))).mul
              (JSNum.fin chartWidth)).add (JSNum.fin MARGIN.left)) := by
  constructor
  · intro hall
    have hfind : (cumulativeData data).find? (fun it => decide (value ≤ it.cost)) = none := by
      rw [List.find?_eq_none]
      intro x hx
      simp only [decide_eq_true_eq]
      exact not_le.mpr (hall x hx)
    simp [quartileX, hfind, JSNum.nan_div, JSNum.nan_mul, JSNum.nan_add]
  · intro l₁ it l₂ heq hbefore hit
    have hfind : (cumulativeData data).find? (fun it => decide (value ≤ it.cost))
        = some it := by
      rw [heq]
      refine find?_first _ l₁ it l₂ (fun a ha => ?_) (by simpa using hit)
      simpa using not_le.mpr (hbefore a ha)
    simp [quartileX, hfind]

/-- C6 counterexample: on the empty record list no layout record has cost
at least the quartile value, yet all three quartile markers are emitted
(with NaN x positions) instead of being skipped. -/
theorem quartile_marker_skip_counterexample :
    (cumulativeData ([] : List Record)).find? (fun it => decide ((0 : ℚ) ≤ it.cost)) = none
  ∧ quartileLines true [] = some
      [{ label := "q1", value := 0, x := JSNum.nan },
       { label := "median", value := 0, x := JSNum.nan },
       { label := "q3", value := 0, x := JSNum.nan }] :=
  ⟨rfl, rfl⟩

/-- Witness for C6 at the worked example: the quartile value 10 is first
reached by the record A with cumulative production 50, and the value 1000
is reached by no record, giving a NaN position. -/
theorem quartile_marker_first_match_witness :
    quartileX exData 10
      = (((JSNum.fin ((50 : ℚ))).div (JSNum.fin (totalProduction exData))).mul
          (JSNum.fin chartWidth)).add (JSNum.fin MARGIN.left)
  ∧ quartileX exData 1000 = JSNum.nan :=
  ⟨(quartile_marker_first_match exData 10).2
      [{ toRecord := { name := "C", production := 50, cost := 5, highlight := false, id := 2 },
         cumulativeProduction := 0 }]
      { toRecord := { name := "A", production := 100, cost := 10, highlight := false, id := 0 },
        cumulativeProduction := 50 }
      [{ toRecord := { name := "B", production := 200, cost := 20, highlight := true, id := 1 },
         cumulativeProduction := 150 }]
      (by norm_num [cumulativeData, cumulativeDataAux, exData])
      (by norm_num) (by norm_num),
   (quartile_marker_first_match exData 1000).1
      (by norm_num [cumulativeData, cumulativeDataAux, exData])⟩

/-! ## Shape of the fields produced by the row-splitting regex -/

lemma shrinkRun_some (rev : List Char) :
    ∀ rest f r, shrinkRun rev rest = some (f, r) → f ≠ [] ∧ ∀ x ∈ f, x ∈ rev := by
  induction rev with
  | nil =>
    intro rest f r h
    simp [shrinkRun] at h
  | cons c t ih =>
    intro rest f r h
    rw [shrinkRun] at h
    by_cases hl : lookaheadOk rest
    · simp only [if_pos hl, Option.some.injEq, Prod.mk.injEq] at h
      obtain ⟨hf, _⟩ := h
      subst hf
      constructor
      · simp
      · intro x hx
        simpa using (List.mem_reverse.mp hx)
    · rw [if_neg hl] at h
      obtain ⟨h1, h2⟩ := ih (c :: rest) f r h
      exact ⟨h1, fun x hx => List.mem_cons_of_mem c (h2 x hx)⟩

lemma tryBare_some (s f : List Char) (r : List Char) (h : tryBare s = some (f, r)) :
    f ≠ [] ∧ ∀ c ∈ f, c ≠ ',' ∧ c ≠ '"' := by
  simp only [tryBare] at h
  obtain ⟨h1, h2⟩ := shrinkRun_some _ _ _ _ h
  refine ⟨h1, fun c hc => ?_⟩
  have hmem : c ∈ s.takeWhile fun x => !(x == '"' || x == ',') := by
    simpa using h2 c hc
  have hp := List.mem_takeWhile_imp hmem
  simp only [Bool.not_eq_true', Bool.or_eq_false_iff, beq_eq_false_iff_ne, ne_eq] at hp
  exact ⟨hp.2, hp.1⟩

lemma lookaheadOk_cons_false (c : Char) (rest : List Char)
    (hc : c ≠ ',') (h : lookaheadOk rest = false) :
    lookaheadOk (c :: rest) = false := by
  unfold lookaheadOk at h ⊢
  rw [List.dropWhile_cons]
  by_cases hw : jsWS c
  · rw [if_pos hw]
    exact h
  · rw [if_neg hw]
    simpa using hc

lemma shrinkRun_none (rev : List Char) :
    ∀ rest, (∀ c ∈ rev, c ≠ ',') → lookaheadOk rest = false →
      shrinkRun rev rest = none := by
  induction rev with
  | nil =>
    intro rest _ _
    rfl
  | cons c t ih =>
    intro rest hc h
    rw [shrinkRun, if_neg (by simp [h])]
    exact ih (c :: rest) (fun x hx => hc x (List.mem_cons_of_mem c hx))
      (lookaheadOk_cons_false c rest (hc c (by simp)) h)

/-- The greedy bare-run alternative can only ever match the whole maximal
run: when the lookahead fails at the end of the run, it also fails after
every character given back (that character is not a comma), so the
backtracking never yields a shorter match. -/
lemma tryBare_eq (s f r : List Char) (h : tryBare s = some (f, r)) :
    f = s.takeWhile (fun c => !(c == '"' || c == ','))
  ∧ r = s.drop (s.takeWhile (fun c => !(c == '"' || c == ','))).length := by
  simp only [tryBare] at h
  by_cases hl : lookaheadOk (s.drop (s.takeWhile (fun c => !(c == '"' || c == ','))).length)
      = true
  · cases hrev : (s.takeWhile (fun c => !(c == '"' || c == ','))).reverse with
    | nil =>
      rw [hrev] at h
      simp [shrinkRun] at h
    | cons c t =>
      rw [hrev, shrinkRun, if_pos hl] at h
      simp only [Option.some.injEq, Prod.mk.injEq] at h
      obtain ⟨hf, hr⟩ := h
      have hfr : f = s.takeWhile (fun c => !(c == '"' || c == ',')) := by
        rw [← hf, ← hrev, List.reverse_reverse]
      exact ⟨hfr, hr.symm⟩
  · have hnone := shrinkRun_none (s.takeWhile (fun c => !(c == '"' || c == ','))).reverse
      (s.drop (s.takeWhile (fun c => !(c == '"' || c == ','))).length)
      (fun c hcm => by
        have hc2 := List.mem_takeWhile_imp (List.mem_reverse.mp hcm)
        simp only [Bool.not_eq_true', Bool.or_eq_false_iff, beq_eq_false_iff_ne, ne_eq] at hc2
        exact hc2.2)
      (by simpa using hl)
    rw [hnone] at h
    simp at h

lemma tryQuoted_suffix (cs : List Char) :
    ∀ inner rest, tryQuoted cs = some (inner, rest) → rest <:+ cs := by
  induction cs with
  | nil =>
    intro inner rest h
    simp [tryQuoted] at h
  | cons c t ih =>
    intro inner rest h
    rw [tryQuoted] at h
    by_cases h1 : c == '"' && lookaheadOk t
    · rw [if_pos h1] at h
      simp only [Option.some.injEq, Prod.mk.injEq] at h
      obtain ⟨_, hr⟩ := h
      rw [← hr]
      exact List.suffix_cons c t
    · rw [if_neg h1] at h
      by_cases h2 : c == '\n' || c == '\r'
      · rw [if_pos h2] at h
        simp at h
      · rw [if_neg h2] at h
        cases hq : tryQuoted t with
        | none =>
          rw [hq] at h
          simp at h
        | some p =>
          obtain ⟨pi, pr⟩ := p
          rw [hq] at h
          simp only [Option.map_some', Option.some.injEq, Prod.mk.injEq] at h
          obtain ⟨_, hr⟩ := h
          rw [← hr]
          exact (ih pi pr hq).trans (List.suffix_cons c t)

lemma matchAt_suffix (s f r : List Char) (h : matchAt s = some (f, r)) : r <:+ s := by
  cases s with
  | nil => simp [matchAt] at h
  | cons c cs =>
    rw [matchAt] at h
    by_cases hc : c == '"'
    · rw [if_pos hc] at h
      cases hq : tryQuoted cs with
      | none =>
        rw [hq] at h
        simp at h
      | some p =>
        obtain ⟨pi, pr⟩ := p
        rw [hq] at h
        simp only [Option.map_some', Option.some.injEq, Prod.mk.injEq] at h
        obtain ⟨_, hr⟩ := h
        rw [← hr]
        exact (tryQuoted_suffix cs pi pr hq).trans (List.suffix_cons c cs)
    · rw [if_neg hc] at h
      obtain ⟨_, hr⟩ := tryBare_eq (c :: cs) f r h
      rw [hr]
      exact List.drop_suffix _ _

lemma matchAt_shape (s f r : List Char) (h : matchAt s = some (f, r)) :
    (f.head? = some '"' ∧ f.getLast? = some '"' ∧ 2 ≤ f.length)
  ∨ (f ≠ [] ∧ (∀ c ∈ f, c ≠ ',' ∧ c ≠ '"')
      ∧ f = s.takeWhile (fun c => !(c == '"' || c == ','))) := by
  cases s with
  | nil => simp [matchAt] at h
  | cons c cs =>
    rw [matchAt] at h
    by_cases hc : c == '"'
    · rw [if_pos hc] at h
      cases hq : tryQuoted cs with
      | none =>
        rw [hq] at h
        simp at h
      | some p =>
        rw [hq] at h
        simp only [Option.map_some', Option.some.injEq, Prod.mk.injEq] at h
        obtain ⟨hf, _⟩ := h
        left
        subst hf
        refine ⟨rfl, ?_, by simp⟩
        rw [← List.cons_append, List.getLast?_concat]
    · rw [if_neg hc] at h
      obtain ⟨h1, h2⟩ := tryBare_some _ _ _ h
      exact Or.inr ⟨h1, h2, (tryBare_eq _ _ _ h).1⟩

lemma scanGo_shape (fuel : ℕ) :
    ∀ s, ∀ f ∈ scanGo fuel s,
      (f.head? = some '"' ∧ f.getLast? = some '"' ∧ 2 ≤ f.length)
    ∨ (f ≠ [] ∧ (∀ c ∈ f, c ≠ ',' ∧ c ≠ '"')
        ∧ ∃ t, t <:+ s ∧ f = t.takeWhile (fun c => !(c == '"' || c == ','))) := by
  induction fuel with
  | zero =>
    intro s f hf
    simp [scanGo] at hf
  | succ n ih =>
    intro s f hf
    cases s with
    | nil => simp [scanGo] at hf
    | cons c cs =>
      rw [scanGo] at hf
      cases hm : matchAt (c :: cs) with
      | none =>
        rw [hm] at hf
        rcases ih cs f hf with hq | ⟨h1, h2, t, ht, hteq⟩
        · exact Or.inl hq
        · exact Or.inr ⟨h1, h2, t, ht.trans (List.suffix_cons c cs), hteq⟩
      | some p =>
        obtain ⟨fld, rest⟩ := p
        rw [hm] at hf
        rcases List.mem_cons.mp hf with rfl | htail
        · rcases matchAt_shape _ _ _ hm with hq | ⟨h1, h2, heq⟩
          · exact Or.inl hq
          · exact Or.inr ⟨h1, h2, c :: cs, List.suffix_refl _, heq⟩
        · have hsuf := matchAt_suffix _ _ _ hm
          rcases ih rest f htail with hq | ⟨h1, h2, t, ht, hteq⟩
          · exact Or.inl hq
          · exact Or.inr ⟨h1, h2, t, ht.trans hsuf, hteq⟩

lemma parseFloat_quote (rest : List Char) : parseFloat ('"' :: rest) = none := rfl

lemma cost_of_quoted_field (fields : List (List Char)) (i : ℕ)
    (h : (fields.getD 2 []).head? = some '"') : (mkRecord fields i).cost = 0 := by
  obtain ⟨rest, hrest⟩ : ∃ rest, fields.getD 2 [] = '"' :: rest := by
    cases hf : fields.getD 2 [] with
    | nil => rw [hf] at h; simp at h
    | cons c cs =>
      rw [hf] at h
      simp only [List.head?_cons, Option.some.injEq] at h
      exact ⟨cs, by rw [h]⟩
  show (parseFloat (fields.getD 2 [])).getD 0 = 0
  rw [hrest, parseFloat_quote]
  rfl

/-- C8 amended: splitting a CSV line yields its fields in order, where
each field is either a double-quoted run with the quotes retained (it
begins and ends with a quote character) or a maximal run of non-comma,
non-quote characters — the whole takeWhile run at the suffix of the line
where it was matched, the greedy alternative never matching a shortened
run; consequently a row whose cost field is double-quoted parses to cost
0 (parseFloat of a string starting with a quote is NaN, turned into 0 by
the or-zero idiom), not to the quoted number. -/
theorem row_split_shape (row : List Char) :
    (∀ f ∈ scanFields row,
        (f.head? = some '"' ∧ f.getLast? = some '"' ∧ 2 ≤ f.length)
      ∨ (f ≠ [] ∧ (∀ c ∈ f, c ≠ ',' ∧ c ≠ '"')
          ∧ ∃ t, t <:+ row ∧ f = t.takeWhile (fun c => !(c == '"' || c == ','))))
  ∧ (∀ fields i, matchFields row = some fields →
        (fields.getD 2 []).head? = some '"' → (mkRecord fields i).cost = 0) :=
  ⟨fun f hf => scanGo_shape row.length row f hf,
   fun fields i _ hq => cost_of_quoted_field fields i hq⟩

/-- C8 counterexample: on the row Mine,100,"10",1 the regex keeps the
quotes of the cost field intact, the quoted cost parses to 0 although the
unquoted text parses to 10, and the whole row is consequently dropped by
the positivity filter. -/
theorem quoted_cost_counterexample :
    matchFields "Mine,100,\"10\",1".data
      = some ["Mine".data, "100".data, "\"10\"".data, "1".data]
  ∧ parseFloat "\"10\"".data = none
  ∧ parseFloat "10".data = some 10
  ∧ (mkRecord ["Mine".data, "100".data, "\"10\"".data, "1".data] 0).cost = 0
  ∧ parseCSV "name,production,cost,highlight\nMine,100,\"10\",1" = [] := by
  refine ⟨by decide, rfl, by with_unfolding_all rfl, rfl, ?_⟩
  with_unfolding_all rfl

/-- Witness for C8 at the concrete row of the counterexample, exercising
both the maximal bare run (the name field) and the quoted-cost mapping. -/
theorem row_split_shape_witness :
    (("Mine".data.head? = some '"' ∧ "Mine".data.getLast? = some '"'
        ∧ 2 ≤ "Mine".data.length)
      ∨ ("Mine".data ≠ [] ∧ (∀ c ∈ "Mine".data, c ≠ ',' ∧ c ≠ '"')
          ∧ ∃ t, t <:+ "Mine,100,\"10\",1".data
              ∧ "Mine".data = t.takeWhile (fun c => !(c == '"' || c == ','))))
  ∧ (mkRecord ["Mine".data, "100".data, "\"10\"".data, "1".data] 5).cost = 0 :=
  ⟨(row_split_shape "Mine,100,\"10\",1".data).1 "Mine".data (by decide),
   (row_split_shape "Mine,100,\"10\",1".data).2
     ["Mine".data, "100".data, "\"10\"".data, "1".data] 5 (by decide) (by decide)⟩

/-! ## Positivity of parsed records and finiteness of the geometry -/

lemma mem_parseCSV_positive (text : String) :
    ∀ r ∈ parseCSV text, 0 < r.production ∧ 0 < r.cost := by
  intro r hr
  have hr2 : r ∈ parsedData text := (List.mem_insertionSort costLE).mp hr
  have hr3 := (List.mem_filter.mp hr2).2
  simpa [recOk] using hr3

lemma le_maxCost_foldl (l : List Record) (a : ℚ) :
    a ≤ l.foldl (fun m r => max m r.cost) a := by
  induction l generalizing a with
  | nil => exact le_refl a
  | cons r rs ih => exact le_trans (le_max_left a r.cost) (ih (max a r.cost))

lemma cost_le_maxCost_foldl (l : List Record) (r : Record) :
    r ∈ l → ∀ a : ℚ, r.cost ≤ l.foldl (fun m x => max m x.cost) a := by
  induction l with
  | nil =>
    intro hr
    simp at hr
  | cons x xs ih =>
    intro hr a
    rcases List.mem_cons.mp hr with rfl | htail
    · exact le_trans (le_max_right a r.cost) (le_maxCost_foldl xs (max a r.cost))
    · exact ih htail (max a x.cost)

lemma maxCost_pos (data : List Record) (hne : data ≠ [])
    (hval : ∀ r ∈ data, 0 < r.cost) : 0 < maxCost data := by
  cases data with
  | nil => exact absurd rfl hne
  | cons r rs =>
    have h1 : 0 < r.cost := hval r (by simp)
    exact lt_of_lt_of_le h1 (cost_le_maxCost_foldl (r :: rs) r (by simp) 0)

lemma geometry_finite (data : List Record) (hne : data ≠ [])
    (hval : ∀ r ∈ data, 0 < r.production ∧ 0 < r.cost) :
    0 < totalProduction data
  ∧ 0 < maxCost data
  ∧ (∀ b ∈ getBars data,
        b.x.isFin = true ∧ b.width.isFin = true ∧ b.y.isFin = true ∧ b.height.isFin = true)
  ∧ (∀ ts, yAxisTicks true data = some ts → ∀ t ∈ ts, t.y.isFin = true)
  ∧ (∀ ts, xAxisTicks true data = some ts → ∀ t ∈ ts, t.x.isFin = true)
  ∧ (weightedAverageY data).isFin = true := by
  have htot : 0 < totalProduction data := by
    cases data with
    | nil => exact absurd rfl hne
    | cons r rs => exact total_pos_of_cons r rs fun x hx => (hval x hx).1
  have hmc : 0 < maxCost data := maxCost_pos data hne fun r hr => (hval r hr).2
  have htotne : totalProduction data ≠ 0 := ne_of_gt htot
  have hmcne : maxCost data ≠ 0 := ne_of_gt hmc
  refine ⟨htot, hmc, ?_, ?_, ?_, ?_⟩
  · intro b hb
    obtain ⟨it, _, rfl⟩ := List.mem_map.mp hb
    refine ⟨?_, ?_, ?_, ?_⟩ <;>
      simp [JSNum.div_fin_fin _ _ htotne, JSNum.div_fin_fin _ _ hmcne,
        JSNum.mul_fin_fin, JSNum.add_fin_fin, JSNum.sub_fin_fin, JSNum.maxJ_fin_fin,
        JSNum.isFin]
  · intro ts hts t ht
    rw [yAxisTicks] at hts
    simp only [Bool.not_true, Bool.false_eq_true, if_false, Option.some.injEq] at hts
    subst hts
    obtain ⟨i, _, rfl⟩ := List.mem_map.mp ht
    simp [JSNum.div_fin_fin _ _ hmcne, JSNum.mul_fin_fin, JSNum.sub_fin_fin, JSNum.isFin]
  · intro ts hts t ht
    rw [xAxisTicks] at hts
    simp only [Bool.not_true, Bool.false_eq_true, if_false, Option.some.injEq] at hts
    subst hts
    obtain ⟨i, _, rfl⟩ := List.mem_map.mp ht
    simp [JSNum.div_fin_fin _ _ htotne, JSNum.mul_fin_fin, JSNum.add_fin_fin, JSNum.isFin]
  · rw [weightedAverageY, weightedAverageCost_eq, JSNum.div_fin_fin _ _ htotne,
      JSNum.div_fin_fin _ _ hmcne, JSNum.mul_fin_fin, JSNum.sub_fin_fin]
    rfl

/-- C9: Every parsed record has positive production and cost, so on every
non-empty parsed record list totalProduction and maxCost are positive and
every division by them in the bar geometry, the axis tick placement and
the weighted-average overlay position is well defined: all those
coordinates are finite numbers, never NaN or an infinity. -/
theorem parsed_positive_geometry_finite (text : String) :
    (∀ r ∈ parseCSV text, 0 < r.production ∧ 0 < r.cost)
  ∧ (parseCSV text ≠ [] →
        0 < totalProduction (parseCSV text)
      ∧ 0 < maxCost (parseCSV text)
      ∧ (∀ b ∈ getBars (parseCSV text),
            b.x.isFin = true ∧ b.width.isFin = true ∧ b.y.isFin = true ∧ b.height.isFin = true)
      ∧ (∀ ts, yAxisTicks true (parseCSV text) = some ts → ∀ t ∈ ts, t.y.isFin = true)
      ∧ (∀ ts, xAxisTicks true (parseCSV text) = some ts → ∀ t ∈ ts, t.x.isFin = true)
      ∧ (weightedAverageY (parseCSV text)).isFin = true) :=
  ⟨mem_parseCSV_positive text,
   fun hne => geometry_finite (parseCSV text) hne (mem_parseCSV_positive text)⟩

/-- Witness for C9 at a concrete CSV text with two surviving rows. -/
theorem parsed_positive_geometry_finite_witness :
    0 < totalProduction (parseCSV exText) ∧ 0 < maxCost (parseCSV exText) :=
  ⟨(((parsed_positive_geometry_finite exText).2 (by
      have h2 : (parseCSV exText).length = 2 := by with_unfolding_all rfl
      intro h
      rw [h] at h2
      simp at h2))).1,
   (((parsed_positive_geometry_finite exText).2 (by
      have h2 : (parseCSV exText).length = 2 := by with_unfolding_all rfl
      intro h
      rw [h] at h2
      simp at h2))).2.1⟩

/-! ## Quartile values hit the data -/

lemma cumulativeDataAux_map_cost (l : List Record) (c : ℚ) :
    (cumulativeDataAux c l).map (fun it => it.cost) = l.map Record.cost := by
  induction l generalizing c with
  | nil => rfl
  | cons r rs ih => simp [cumulativeDataAux, ih]

lemma cumulativeData_map_cost (data : List Record) :
    (cumulativeData data).map (fun it => it.cost) = data.map Record.cost :=
  cumulativeDataAux_map_cost data 0

lemma quartile_mem_costs (data : List Record) (hne : data ≠ []) :
    (quartiles data).q1 ∈ data.map Record.cost
  ∧ (quartiles data).median ∈ data.map Record.cost
  ∧ (quartiles data).q3 ∈ data.map Record.cost := by
  have hpos : 0 < (sortedCosts data).length := by
    rw [sortedCosts_length data]
    exact List.length_pos.mpr hne
  have hmem : ∀ i, i < (sortedCosts data).length →
      (sortedCosts data).getD i 0 ∈ data.map Record.cost := by
    intro i hi
    have h1 : (sortedCosts data).getD i 0 = (sortedCosts data)[i] := by
      simp only [List.getD_eq_getElem?_getD, List.getElem?_eq_getElem hi, Option.getD_some]
    rw [h1]
    have h2 : (sortedCosts data)[i] ∈ sortedCosts data := List.getElem_mem hi
    revert h2
    generalize (sortedCosts data)[i] = x
    intro h2
    have h3 : x ∈ (cumulativeData data).map (fun it => it.cost) :=
      (List.mem_insertionSort (· ≤ ·)).mp h2
    rwa [cumulativeData_map_cost] at h3
  have hq1 : (quartiles data).q1
      = (sortedCosts data).getD ((sortedCosts data).length / 4) 0 := rfl
  have hq2 : (quartiles data).median
      = (sortedCosts data).getD ((sortedCosts data).length / 2) 0 := rfl
  have hq3 : (quartiles data).q3
      = (sortedCosts data).getD (3 * (sortedCosts data).length / 4) 0 := rfl
  exact ⟨hq1 ▸ hmem _ (by omega), hq2 ▸ hmem _ (by omega), hq3 ▸ hmem _ (by omega)⟩

/-- C10: On a non-empty validated record list every quartile value is one
of the cost values, so the linear search for the first record with cost at
least the quartile value always succeeds and every quartile marker gets a
defined, finite x position. -/
theorem quartile_markers_defined (data : List Record) (hne : data ≠ [])
    (hval : ∀ r ∈ data, 0 < r.production ∧ 0 < r.cost) :
    ((quartiles data).q1 ∈ data.map Record.cost
     ∧ (quartiles data).median ∈ data.map Record.cost
     ∧ (quartiles data).q3 ∈ data.map Record.cost)
  ∧ ∀ q ∈ [(quartiles data).q1, (quartiles data).median, (quartiles data).q3],
      ((cumulativeData data).find? (fun it => decide (q ≤ it.cost))).isSome = true
    ∧ (quartileX data q).isFin = true := by
  have hmem := quartile_mem_costs data hne
  refine ⟨hmem, ?_⟩
  have htot : 0 < totalProduction data := by
    cases data with
    | nil => exact absurd rfl hne
    | cons r rs => exact total_pos_of_cons r rs fun x hx => (hval x hx).1
  intro q hq
  simp only [List.mem_cons, List.not_mem_nil, or_false] at hq
  have hqc : q ∈ data.map Record.cost := by
    rcases hq with rfl | rfl | rfl
    · exact hmem.1
    · exact hmem.2.1
    · exact hmem.2.2
  have hqc2 : q ∈ (cumulativeData data).map (fun it => it.cost) := by
    rwa [cumulativeData_map_cost]
  obtain ⟨it, hit, hitq⟩ := List.mem_map.mp hqc2
  have hsome : ((cumulativeData data).find? (fun it => decide (q ≤ it.cost))).isSome = true :=
    List.find?_isSome.mpr ⟨it, hit, by simp [hitq.symm.le]⟩
  refine ⟨hsome, ?_⟩
  obtain ⟨it2, hfind⟩ := Option.isSome_iff_exists.mp hsome
  simp only [quartileX, hfind]
  rw [JSNum.div_fin_fin _ _ (ne_of_gt htot), JSNum.mul_fin_fin, JSNum.add_fin_fin]
  rfl

/-- Witness for C10 at the worked example of the specification. -/
theorem quartile_markers_defined_witness :
    ((cumulativeData exData).find?
        (fun it => decide ((quartiles exData).q1 ≤ it.cost))).isSome = true
  ∧ (quartileX exData (quartiles exData).q1).isFin = true :=
  (quartile_markers_defined exData (by decide) (by decide)).2 _ (by simp)

end CostCurve
